import Mathlib

/-!
Verification of the documentation section-discovery and section-extraction
core of the OpenBB docs MCP server (`server.py`).

The Python functions `_parse_toc`, `_extract_sections_from_docs`,
`_find_section_content` and the two async tool handlers are shallowly
embedded as pure Lean functions over `String` (backed by `List Char`).
Python strings are modelled by Lean `String`; `str.lower` by mapping
`Char.toLower`; `str.strip` by dropping whitespace on both ends;
`pat in s` by list infix; `s.startswith(p)` by list prefix; Python's
insertion-ordered `dict` by an association list with insert-or-update.
-/

namespace OpenBBDocs

/-- Python `str.lower()` (ASCII-relevant): lowercase every character. -/
def pyLower (s : String) : String := ⟨s.data.map Char.toLower⟩

/-- Strip leading and trailing whitespace from a character list. -/
def stripList (l : List Char) : List Char :=
  ((l.dropWhile Char.isWhitespace).reverse.dropWhile Char.isWhitespace).reverse

/-- Python `str.strip()`: remove leading and trailing whitespace. -/
def pyStrip (s : String) : String := ⟨stripList s.data⟩

/-- Python `pat in s`: substring containment. -/
def pyIn (pat s : String) : Bool := decide (pat.data <:+: s.data)

/-- Python `s.startswith(pre)`. -/
def pyStartswith (s pre : String) : Bool := decide (pre.data <+: s.data)

/-- Python `s.replace(' ', '-')`: replace every space with a hyphen. -/
def pyReplaceSpaceDash (s : String) : String :=
  ⟨s.data.map (fun c => if c = ' ' then '-' else c)⟩

/-- Helper for `splitLines`: accumulate the current line (reversed) while
splitting on newline characters, mirroring Python `str.split('\n')`. -/
def splitLinesAux : List Char → List Char → List (List Char)
  | [], acc => [acc.reverse]
  | c :: cs, acc =>
    if c = '\n' then acc.reverse :: splitLinesAux cs []
    else splitLinesAux cs (c :: acc)

/-- Python `s.split('\n')`. -/
def splitLines (s : String) : List String :=
  (splitLinesAux s.data []).map String.mk

/-- Python `'\n'.join(lines)`. -/
def joinLines : List String → String
  | [] => ""
  | [l] => l
  | l :: ls => l ++ "\n" ++ joinLines ls

/-! ## `_find_section_content` (server.py lines 300-341) -/

/-- The literal truncation marker line appended by `_find_section_content`. -/
def truncMarker : String := "... (content truncated)"

/-- The match test of `_find_section_content`'s scan:
`pattern in line.lower() or line.lower().strip() == pattern`.
Note that only the line is lowercased, not the pattern. -/
def lineMatches (pattern line : String) : Bool :=
  pyIn pattern (pyLower line) || pyStrip (pyLower line) == pattern

/-- The boundary test of `_find_section_content`'s accumulation loop:
`current_line.startswith('# ') or current_line.startswith('## ') and
current_line != line.strip()` where `current_line` is the stripped
candidate and `line` is the matched header line. -/
def isBoundary (headerLine current : String) : Bool :=
  pyStartswith (pyStrip current) "# " ||
    (pyStartswith (pyStrip current) "## " && pyStrip current != pyStrip headerLine)

/-- The accumulation loop of `_find_section_content`: starting from the
accumulated `acc` (initially the matched header line), append subsequent
lines until a boundary line, the end of the document, or the 100-line cap
(which appends the truncation marker). -/
def extractFrom (headerLine : String) : List String → List String → List String
  | [], acc => acc
  | l :: ls, acc =>
    if isBoundary headerLine l then acc
    else
      let acc2 := acc ++ [l]
      if acc2.length > 100 then acc2 ++ [truncMarker]
      else extractFrom headerLine ls acc2

/-- The inner line scan of `_find_section_content`: find the first line
matching `pattern`, returning it together with the lines after it. -/
def scanLines (pattern : String) : List String → Option (String × List String)
  | [] => none
  | l :: ls =>
    if lineMatches pattern l then some (l, ls) else scanLines pattern ls

/-- The outer pattern loop of `_find_section_content`: try each pattern in
order; on the first pattern with a matching line, extract and return. -/
def tryPatterns (lines : List String) : List String → Option String
  | [] => none
  | p :: ps =>
    match scanLines p lines with
    | some (l, rest) => some (joinLines (extractFrom l rest [l]))
    | none => tryPatterns lines ps

/-- The fixed candidate pattern list of `_find_section_content`. -/
def patternsFor (title : String) : List String :=
  ["# " ++ title, "## " ++ title, "### " ++ title,
   title, pyLower title, pyLower (pyReplaceSpaceDash title)]

/-- `_find_section_content(full_docs, title)`. -/
def find_section_content (full_docs title : String) : Option String :=
  tryPatterns (splitLines full_docs) (patternsFor title)

/-! ## `_extract_sections_from_docs` (server.py lines 285-297) -/

/-- The not-found placeholder `f"Section '{title}' not found in documentation."`. -/
def notFound (title : String) : String :=
  "Section \x27" ++ title ++ "\x27 not found in documentation."

/-- Python dict assignment `d[k] = v`: update in place if the key exists
(keeping its position), otherwise append. -/
def dictInsert (d : List (String × String)) (k v : String) : List (String × String) :=
  if d.any (fun p => p.1 == k) then
    d.map (fun p => if p.1 == k then (k, v) else p)
  else d ++ [(k, v)]

/-- Python dict lookup. -/
def dictGet : List (String × String) → String → Option String
  | [], _ => none
  | (k, v) :: d, key => if k == key then some v else dictGet d key

/-- `_extract_sections_from_docs(full_docs, section_titles)`.  The Python
`if section_content:` truthiness test treats both `None` and the empty
string as not found. -/
def extract_sections_from_docs (full_docs : String) (section_titles : List String) :
    List (String × String) :=
  section_titles.foldl (fun acc title =>
    match find_section_content full_docs title with
    | some c => if c ≠ "" then dictInsert acc title c else dictInsert acc title (notFound title)
    | none => dictInsert acc title (notFound title)) []

/-! ## `_parse_toc` (server.py lines 244-282) -/

/-- One parsed TOC entry as appended by `_parse_toc`. -/
structure SectionRecord where
  title : String
  category : String
  url : String
  description : String
deriving DecidableEq, Repr

/-- The `re.search(r'\[([^\]]+)\]\(([^)]+)\)', line)` match attempt anchored
at the start of `cs`: a literal `[`, one or more non-`]` characters, `]`,
`(`, one or more non-`)` characters, `)`. -/
def linkMatchAt (cs : List Char) : Option (List Char × List Char) :=
  match cs with
  | '[' :: rest =>
    match rest.takeWhile (fun c => c ≠ ']'), rest.dropWhile (fun c => c ≠ ']') with
    | t :: ts, ']' :: '(' :: rest3 =>
      match rest3.takeWhile (fun c => c ≠ ')'), rest3.dropWhile (fun c => c ≠ ')') with
      | u :: us, ')' :: _ => some (t :: ts, u :: us)
      | _, _ => none
    | _, _ => none
  | _ => none

/-- `re.search` for the link regex: try the anchored match at every start
position, leftmost first. -/
def searchLink : List Char → Option (List Char × List Char)
  | [] => none
  | c :: cs =>
    match linkMatchAt (c :: cs) with
    | some r => some r
    | none => searchLink cs

/-- The bullet/ordinal test `line.startswith(('-', '*', '1.', '2.', '3.', '4.', '5.'))`. -/
def isBulletLine (line : String) : Bool :=
  pyStartswith line "-" || pyStartswith line "*" || pyStartswith line "1." ||
  pyStartswith line "2." || pyStartswith line "3." || pyStartswith line "4." ||
  pyStartswith line "5."

/-- Python `line.replace('#', '')`: remove every `#` character. -/
def removeHash (s : String) : String := ⟨s.data.filter (fun c => c ≠ '#')⟩

/-- The query filter of `_parse_toc`: `query` is kept-all when absent or
empty (Python truthiness), otherwise the record is kept when the lowercased
query is a substring of the lowercased title or of the lowercased current
category. -/
def queryKeep : Option String → String → String → Bool
  | none, _, _ => true
  | some q, title, cat =>
    q == "" || pyIn (pyLower q) (pyLower title) || pyIn (pyLower q) (pyLower cat)

/-- The record appended by `_parse_toc`: the synthesized description is
`f"{category}: {title}"` when the category is non-empty, else the title. -/
def mkRecord (title cat url : String) : SectionRecord :=
  ⟨title, cat, url, if cat != "" then cat ++ ": " ++ title else title⟩

/-- One iteration of `_parse_toc`'s line loop over the state
`(current_category, sections)`; the Python local `line = line.strip()` is
inlined as `pyStrip rawLine`. -/
def parseTocStep (query : Option String) (st : String × List SectionRecord)
    (rawLine : String) : String × List SectionRecord :=
  if pyStrip rawLine == "" then st
  else if !isBulletLine (pyStrip rawLine) then
    if pyStrip rawLine != "" && !pyStartswith (pyStrip rawLine) "#" &&
        !pyStartswith (pyStrip rawLine) "http" then
      (pyStrip (removeHash (pyStrip rawLine)), st.2)
    else st
  else
    match searchLink (pyStrip rawLine).data with
    | none => st
    | some (t, u) =>
      if queryKeep query (pyStrip ⟨t⟩) st.1 then
        (st.1, st.2 ++ [mkRecord (pyStrip ⟨t⟩) st.1 (pyStrip ⟨u⟩)])
      else st

/-- `_parse_toc(toc_content, query)`. -/
def parse_toc (toc_content : String) (query : Option String) : List SectionRecord :=
  ((splitLines (pyStrip toc_content)).foldl (parseTocStep query) ("", [])).2

/-! ## The two async tool handlers (server.py lines 110-241).
The HTTP fetch collaborator is modelled as an `Except` value supplied by the
caller: `.ok text` is a successful fetch, `.error e` a raised exception with
message `e`.  The constant LLM instruction prompt carried in the success
dictionaries is free text irrelevant to control flow and is not modelled. -/

/-- The result dictionary of `_identify_sections_async`: `error` is present
only in the failure branch. -/
structure IdentifyResult where
  success : Bool
  error : Option String
  query : String
  raw_toc_content : String
deriving DecidableEq, Repr

/-- The result dictionary of `_fetch_content_async`: `error` is present only
in the failure branch, `sections_found` only in the success branch. -/
structure FetchResult where
  success : Bool
  error : Option String
  user_query : String
  extracted_content : List (String × String)
  sections_found : Option Nat
deriving DecidableEq, Repr

/-- `_identify_sections_async(user_query)` given the fetch outcome. -/
def identify_sections_async (fetch : Except String String) (user_query : String) :
    IdentifyResult :=
  match fetch with
  | .ok toc => ⟨true, none, user_query, toc⟩
  | .error e => ⟨false, some e, user_query, ""⟩

/-- The message of the `KeyError` raised by `str.format` on the instruction
template of `_fetch_content_async`: besides the intended `query` field, the
template contains a literal brace replacement field whose field name is
`"Website"` (from the citation example), so `.format(query=...)` raises
`KeyError` with key `'"Website"'`; `str` of that exception is the repr of
the key. -/
def formatKeyErrorMsg : String := "\x27\"Website\"\x27"

/-- `_fetch_content_async(section_titles, user_query)` given the fetch
outcome.  On a successful fetch the try block extracts the sections and then
builds the success dictionary, whose `instruction` entry calls `str.format`
on the template; that call raises `KeyError` (see `formatKeyErrorMsg`), so
the except clause turns even the successful fetch into the failure
dictionary. -/
def fetch_content_async (fetch : Except String String) (section_titles : List String)
    (user_query : String) : FetchResult :=
  match fetch with
  | .ok full_docs =>
    let _content := extract_sections_from_docs full_docs section_titles
    ⟨false, some formatKeyErrorMsg, user_query, [], none⟩
  | .error e => ⟨false, some e, user_query, [], none⟩

/-! ## Definitions modelled from the spec's words, for refinement claims. -/

/-- Modelled from the spec: the matcher claimed by C5, which compares the
pattern case-insensitively against the line (both sides lowercased). -/
def specLineMatches (pattern line : String) : Bool :=
  pyIn (pyLower pattern) (pyLower line) || pyStrip (pyLower line) == pattern

/-- Modelled from the spec: `scanLines` with the claimed matcher. -/
def specScanLines (pattern : String) : List String → Option (String × List String)
  | [] => none
  | l :: ls =>
    if specLineMatches pattern l then some (l, ls) else specScanLines pattern ls

/-- Modelled from the spec: `tryPatterns` with the claimed matcher. -/
def specTryPatterns (lines : List String) : List String → Option String
  | [] => none
  | p :: ps =>
    match specScanLines p lines with
    | some (l, rest) => some (joinLines (extractFrom l rest [l]))
    | none => specTryPatterns lines ps

/-- Modelled from the spec: `_find_section_content` with the matcher claimed
by C5 (case-insensitive substring comparison). -/
def specFindSectionContent (full_docs title : String) : Option String :=
  specTryPatterns (splitLines full_docs) (patternsFor title)

/-- The requested titles with later duplicates removed, keeping
first-occurrence order: the key sequence of a Python dict filled in
request order. -/
def firstDedup (ts : List String) : List String :=
  ts.foldl (fun acc t => if t ∈ acc then acc else acc ++ [t]) []

/-! ## Basic lemmas about the string model -/

theorem data_ne_nil_of_ne_empty {s : String} (h : s ≠ "") : s.data ≠ [] := by
  intro hd
  apply h
  cases s with
  | mk d => cases hd; rfl

theorem ne_empty_of_data_ne_nil {s : String} (h : s.data ≠ []) : s ≠ "" := by
  intro he
  rw [he] at h
  exact h rfl

theorem pyIn_eq_true_iff {p s : String} : pyIn p s = true ↔ p.data <:+: s.data := by
  simp [pyIn]

theorem pyStartswith_eq_true_iff {s pre : String} :
    pyStartswith s pre = true ↔ pre.data <+: s.data := by
  simp [pyStartswith]

theorem pyIn_empty_left (s : String) : pyIn "" s = true := by
  simp [pyIn]

theorem pyLower_data (s : String) : (pyLower s).data = s.data.map Char.toLower := rfl

theorem pyLower_append (s t : String) : pyLower (s ++ t) = pyLower s ++ pyLower t := by
  cases s with
  | mk sd =>
    cases t with
    | mk td =>
      show String.mk (List.map Char.toLower (sd ++ td)) =
        String.mk (List.map Char.toLower sd ++ List.map Char.toLower td)
      rw [List.map_append]

theorem pyLower_ne_empty {s : String} (h : s ≠ "") : pyLower s ≠ "" := by
  apply ne_empty_of_data_ne_nil
  rw [pyLower_data]
  simp [data_ne_nil_of_ne_empty h]

theorem stripList_isInfix (l : List Char) : stripList l <:+: l := by
  unfold stripList
  have h1 : (l.dropWhile Char.isWhitespace).reverse.dropWhile Char.isWhitespace <:+
      (l.dropWhile Char.isWhitespace).reverse := List.dropWhile_suffix _
  have h2 : ((l.dropWhile Char.isWhitespace).reverse.dropWhile Char.isWhitespace).reverse <+:
      l.dropWhile Char.isWhitespace := by
    apply List.reverse_suffix.mp
    rw [List.reverse_reverse]
    exact h1
  exact h2.isInfix.trans (List.dropWhile_suffix Char.isWhitespace).isInfix

theorem pyStrip_data_isInfix (s : String) : (pyStrip s).data <:+: s.data :=
  stripList_isInfix s.data

theorem lineMatches_empty (l : String) : lineMatches "" l = true := by
  simp [lineMatches, pyIn_empty_left]

theorem lineMatches_nil_line {p : String} (hp : p ≠ "") (h : lineMatches p "" = true) :
    False := by
  have hd := data_ne_nil_of_ne_empty hp
  simp only [lineMatches, Bool.or_eq_true] at h
  rcases h with h | h
  · rw [pyIn_eq_true_iff] at h
    have : (pyLower "").data = [] := rfl
    rw [this] at h
    have := List.eq_nil_of_infix_nil h
    exact hd this
  · have : pyStrip (pyLower "") = "" := rfl
    rw [this] at h
    exact hp (eq_of_beq h).symm

/-! ## Lemmas about `splitLines` and `joinLines` -/

theorem splitLinesAux_newline (cs acc : List Char) :
    splitLinesAux ('\n' :: cs) acc = acc.reverse :: splitLinesAux cs [] := by
  simp [splitLinesAux]

theorem splitLinesAux_ne_nil (cs acc : List Char) : splitLinesAux cs acc ≠ [] := by
  induction cs generalizing acc with
  | nil => simp [splitLinesAux]
  | cons c cs ih =>
    by_cases hc : c = '\n'
    · subst hc
      rw [splitLinesAux_newline]
      simp
    · simp only [splitLinesAux, if_neg hc]
      exact ih _

theorem splitLines_ne_nil (s : String) : splitLines s ≠ [] := by
  unfold splitLines
  simp [splitLinesAux_ne_nil]

theorem isInfix_of_mem_splitLinesAux {l cs acc : List Char}
    (h : l ∈ splitLinesAux cs acc) : l <:+: acc.reverse ++ cs := by
  induction cs generalizing acc with
  | nil =>
    simp [splitLinesAux] at h
    subst h
    simp
  | cons c cs ih =>
    by_cases hc : c = '\n'
    · subst hc
      simp only [splitLinesAux, if_pos rfl] at h
      rcases List.mem_cons.mp h with h | h
      · subst h
        exact (List.prefix_append acc.reverse ('\n' :: cs)).isInfix
      · have h3 := @ih [] h
        simp only [List.reverse_nil, List.nil_append] at h3
        have h4 : cs <:+ acc.reverse ++ '\n' :: cs := ⟨acc.reverse ++ ['\n'], by simp⟩
        exact h3.trans h4.isInfix
    · simp only [splitLinesAux, if_neg hc] at h
      have h3 := @ih (c :: acc) h
      simpa using h3

theorem isInfix_of_mem_splitLines {l : String} {s : String}
    (h : l ∈ splitLines s) : l.data <:+: s.data := by
  unfold splitLines at h
  rcases List.mem_map.mp h with ⟨cs, hcs, hl⟩
  have := isInfix_of_mem_splitLinesAux hcs
  simp at this
  rw [← hl]
  exact this

theorem no_newline_mem_splitLinesAux {l cs acc : List Char}
    (hacc : '\n' ∉ acc) (h : l ∈ splitLinesAux cs acc) : '\n' ∉ l := by
  induction cs generalizing acc with
  | nil =>
    simp [splitLinesAux] at h
    subst h
    simpa using hacc
  | cons c cs ih =>
    by_cases hc : c = '\n'
    · subst hc
      simp [splitLinesAux] at h
      rcases h with h | h
      · subst h
        simpa using hacc
      · exact ih (by simp) h
    · simp [splitLinesAux, hc] at h
      exact ih (by simp [hacc, Ne.symm hc]) h

theorem no_newline_mem_splitLines {l : String} {s : String}
    (h : l ∈ splitLines s) : '\n' ∉ l.data := by
  unfold splitLines at h
  rcases List.mem_map.mp h with ⟨cs, hcs, hl⟩
  rw [← hl]
  exact no_newline_mem_splitLinesAux (by simp) hcs

theorem splitLinesAux_append_no_newline {x : List Char} (hx : '\n' ∉ x) :
    ∀ cs acc, splitLinesAux (x ++ cs) acc = splitLinesAux cs (x.reverse ++ acc) := by
  induction x with
  | nil => intro cs acc; simp
  | cons c x ih =>
    intro cs acc
    have hc : c ≠ '\n' := fun h => hx (by simp [h])
    have hx2 : '\n' ∉ x := fun h => hx (by simp [h])
    simp [splitLinesAux, hc, ih hx2]

theorem joinLines_data_cons (a b : String) (ls : List String) :
    (joinLines (a :: b :: ls)).data = a.data ++ '\n' :: (joinLines (b :: ls)).data := by
  show (a ++ "\n" ++ joinLines (b :: ls)).data = _
  rw [String.data_append, String.data_append, List.append_assoc]
  rfl

theorem splitLines_joinLines {L : List String} (hL : L ≠ [])
    (hnl : ∀ x ∈ L, '\n' ∉ x.data) : splitLines (joinLines L) = L := by
  induction L with
  | nil => exact absurd rfl hL
  | cons a L ih =>
    cases L with
    | nil =>
      unfold splitLines
      have : (joinLines [a]).data = a.data := rfl
      rw [this]
      have ha : '\n' ∉ a.data := hnl a (by simp)
      have := splitLinesAux_append_no_newline ha [] []
      simp at this
      rw [this]
      simp [splitLinesAux]
    | cons b L2 =>
      have ha : '\n' ∉ a.data := hnl a (by simp)
      have ihr := ih (by simp) (fun x hx => hnl x (by simp [hx]))
      unfold splitLines at ihr ⊢
      rw [joinLines_data_cons, splitLinesAux_append_no_newline ha
        ('\n' :: (joinLines (b :: L2)).data) [], splitLinesAux_newline]
      simp only [List.append_nil, List.reverse_reverse, List.map_cons, ihr]

theorem joinLines_ne_empty_of_head_ne {l : String} (ls : List String) (h : l ≠ "") :
    joinLines (l :: ls) ≠ "" := by
  cases ls with
  | nil => exact h
  | cons b ls2 =>
    apply ne_empty_of_data_ne_nil
    rw [joinLines_data_cons]
    simp

theorem joinLines_cons_cons_ne_empty (a b : String) (ls : List String) :
    joinLines (a :: b :: ls) ≠ "" := by
  apply ne_empty_of_data_ne_nil
  rw [joinLines_data_cons]
  simp

/-! ## Lemmas about the line scan and pattern loop -/

theorem scanLines_eq_none_iff {p : String} {ls : List String} :
    scanLines p ls = none ↔ ∀ l ∈ ls, lineMatches p l = false := by
  induction ls with
  | nil => simp [scanLines]
  | cons l ls ih =>
    by_cases h : lineMatches p l
    · simp [scanLines, h]
    · simp [scanLines, h, ih, Bool.eq_false_iff.mpr h]

theorem scanLines_eq_some {p : String} {ls : List String} {l : String}
    {r : List String} (h : scanLines p ls = some (l, r)) :
    lineMatches p l = true ∧
      ∃ pre, ls = pre ++ l :: r ∧ ∀ x ∈ pre, lineMatches p x = false := by
  induction ls generalizing r with
  | nil => simp [scanLines] at h
  | cons a ls ih =>
    by_cases ha : lineMatches p a
    · simp [scanLines, ha] at h
      obtain ⟨h1, h2⟩ := h
      subst h1; subst h2
      exact ⟨ha, [], rfl, by simp⟩
    · simp only [scanLines, if_neg ha] at h
      obtain ⟨hm, pre, hpre, hnone⟩ := ih h
      refine ⟨hm, a :: pre, by simp [hpre], ?_⟩
      intro x hx
      rcases List.mem_cons.mp hx with hx | hx
      · subst hx; exact Bool.eq_false_iff.mpr ha
      · exact hnone x hx

theorem scanLines_isSome_of_mem {p : String} {ls : List String} {l : String}
    (hl : l ∈ ls) (hm : lineMatches p l = true) : (scanLines p ls).isSome := by
  induction ls with
  | nil => simp at hl
  | cons a ls ih =>
    by_cases ha : lineMatches p a
    · simp [scanLines, ha]
    · simp only [scanLines, if_neg ha]
      rcases List.mem_cons.mp hl with h | h
      · subst h; exact absurd hm (by simp [ha])
      · exact ih h

theorem extractFrom_nil (h : String) (acc : List String) :
    extractFrom h [] acc = acc := rfl

theorem extractFrom_cons (h l : String) (ls acc : List String) :
    extractFrom h (l :: ls) acc =
      if isBoundary h l then acc
      else if (acc ++ [l]).length > 100 then acc ++ [l] ++ [truncMarker]
      else extractFrom h ls (acc ++ [l]) := rfl

theorem extractFrom_eq_append (h : String) (rest acc : List String) :
    ∃ t, extractFrom h rest acc = acc ++ t := by
  induction rest generalizing acc with
  | nil => exact ⟨[], by simp [extractFrom_nil]⟩
  | cons l ls ih =>
    rw [extractFrom_cons]
    by_cases hb : isBoundary h l
    · exact ⟨[], by simp [hb]⟩
    · rw [if_neg hb]
      by_cases hlen : (acc ++ [l]).length > 100
      · exact ⟨[l] ++ [truncMarker], by rw [if_pos hlen]; simp⟩
      · obtain ⟨t, ht⟩ := ih (acc ++ [l])
        exact ⟨[l] ++ t, by rw [if_neg hlen, ht]; simp⟩

theorem extractFrom_take (h : String) (rest acc : List String) :
    ∃ k, extractFrom h rest acc = acc ++ rest.take k ∨
      extractFrom h rest acc = acc ++ rest.take k ++ [truncMarker] := by
  induction rest generalizing acc with
  | nil => exact ⟨0, .inl (by simp [extractFrom_nil])⟩
  | cons l ls ih =>
    rw [extractFrom_cons]
    by_cases hb : isBoundary h l
    · exact ⟨0, .inl (by simp [hb])⟩
    · rw [if_neg hb]
      by_cases hlen : (acc ++ [l]).length > 100
      · exact ⟨1, .inr (by rw [if_pos hlen]; simp)⟩
      · obtain ⟨k, hk | hk⟩ := ih (acc ++ [l])
        · exact ⟨k + 1, .inl (by rw [if_neg hlen, hk]; simp)⟩
        · exact ⟨k + 1, .inr (by rw [if_neg hlen, hk]; simp)⟩

theorem extractFrom_mem {h : String} {rest acc : List String} {x : String}
    (hx : x ∈ extractFrom h rest acc) : x ∈ acc ∨ x ∈ rest ∨ x = truncMarker := by
  induction rest generalizing acc with
  | nil => rw [extractFrom_nil] at hx; exact .inl hx
  | cons l ls ih =>
    rw [extractFrom_cons] at hx
    by_cases hb : isBoundary h l
    · rw [if_pos hb] at hx; exact .inl hx
    · rw [if_neg hb] at hx
      by_cases hlen : (acc ++ [l]).length > 100
      · rw [if_pos hlen] at hx
        rcases List.mem_append.mp hx with hx2 | hx2
        · rcases List.mem_append.mp hx2 with hx3 | hx3
          · exact .inl hx3
          · exact .inr (.inl (by simp [List.mem_singleton.mp hx3]))
        · exact .inr (.inr (List.mem_singleton.mp hx2))
      · rw [if_neg hlen] at hx
        rcases ih hx with hx2 | hx2 | hx2
        · rcases List.mem_append.mp hx2 with hx3 | hx3
          · exact .inl hx3
          · exact .inr (.inl (by simp [List.mem_singleton.mp hx3]))
        · exact .inr (.inl (by simp [hx2]))
        · exact .inr (.inr hx2)

theorem extractFrom_length_bound {h : String} {rest acc : List String}
    (hacc : acc.length ≤ 100) :
    (extractFrom h rest acc).length ≤ 100 ∨
      ((extractFrom h rest acc).length = 102 ∧
        (extractFrom h rest acc).getLast? = some truncMarker) := by
  induction rest generalizing acc with
  | nil => exact .inl (by simpa [extractFrom_nil] using hacc)
  | cons l ls ih =>
    rw [extractFrom_cons]
    by_cases hb : isBoundary h l
    · exact .inl (by simpa [hb] using hacc)
    · rw [if_neg hb]
      by_cases hlen : (acc ++ [l]).length > 100
      · rw [if_pos hlen]
        refine .inr ⟨?_, List.getLast?_concat _⟩
        have h1 : (acc ++ [l]).length = 101 := by
          simp at hlen ⊢
          omega
        simp at h1 ⊢
        omega
      · rw [if_neg hlen]
        apply ih
        simp at hlen ⊢
        omega

theorem extractFrom_stop_at_boundary {h : String} {rest acc : List String} {j : Nat}
    (hj : j < rest.length) (hpre : ∀ l ∈ rest.take j, isBoundary h l = false)
    (hb : isBoundary h (rest.getD j "") = true) (hcap : acc.length + j ≤ 100) :
    extractFrom h rest acc = acc ++ rest.take j := by
  induction j generalizing rest acc with
  | zero =>
    cases rest with
    | nil => simp at hj
    | cons l ls =>
      simp only [List.getD_cons_zero] at hb
      rw [extractFrom_cons, if_pos hb]
      simp
  | succ j ih =>
    cases rest with
    | nil => simp at hj
    | cons l ls =>
      have hl : isBoundary h l = false := hpre l (by simp)
      rw [extractFrom_cons, if_neg (by simp [hl])]
      have hlen : ¬((acc ++ [l]).length > 100) := by
        simp
        omega
      rw [if_neg hlen]
      have hrec := @ih ls (acc ++ [l]) (by simpa using hj)
        (fun x hx => hpre x (by simp [hx])) (by simpa using hb) (by simp; omega)
      rw [hrec]
      simp [List.take_succ_cons]

theorem extractFrom_truncates {h : String} {rest acc : List String}
    (hnb : ∀ l ∈ rest, isBoundary h l = false) (hacc : acc.length ≤ 100)
    (hlong : 100 < acc.length + rest.length) :
    extractFrom h rest acc = acc ++ rest.take (101 - acc.length) ++ [truncMarker] := by
  induction rest generalizing acc with
  | nil =>
    exfalso
    simp at hlong
    omega
  | cons l ls ih =>
    have hl : isBoundary h l = false := hnb l (by simp)
    rw [extractFrom_cons, if_neg (by simp [hl])]
    by_cases hlen : (acc ++ [l]).length > 100
    · rw [if_pos hlen]
      have h1 : acc.length = 100 := by
        simp at hlen
        omega
      have h2 : 101 - acc.length = 1 := by omega
      simp [h2]
    · rw [if_neg hlen]
      have h1 : (acc ++ [l]).length ≤ 100 := Nat.not_lt.mp hlen
      have hrec := @ih (acc ++ [l]) (fun x hx => hnb x (by simp [hx])) h1
        (by simp at h1 hlong ⊢; omega)
      rw [hrec]
      have h2 : 101 - (acc ++ [l]).length = 100 - acc.length := by
        simp only [List.length_append, List.length_cons, List.length_nil]
        omega
      have h3 : 101 - acc.length = (100 - acc.length) + 1 := by
        simp at h1
        omega
      rw [h2, h3]
      simp [List.take_succ_cons, List.append_assoc]

theorem tryPatterns_eq_none_iff {lines pats : List String} :
    tryPatterns lines pats = none ↔
      ∀ p ∈ pats, ∀ l ∈ lines, lineMatches p l = false := by
  induction pats with
  | nil => simp [tryPatterns]
  | cons p ps ih =>
    cases hscan : scanLines p lines with
    | some lr =>
      simp only [tryPatterns, hscan]
      constructor
      · intro h; exact absurd h (by simp)
      · intro h
        obtain ⟨hm, pre, hpre, _⟩ := scanLines_eq_some (l := lr.1) (r := lr.2)
          (by simpa using hscan)
        have := h p (by simp) lr.1 (by simp [hpre])
        rw [hm] at this
        exact absurd this (by simp)
    | none =>
      simp only [tryPatterns, hscan, ih]
      have hnone := scanLines_eq_none_iff.mp hscan
      constructor
      · intro h q hq l hl
        rcases List.mem_cons.mp hq with hq | hq
        · subst hq; exact hnone l hl
        · exact h q hq l hl
      · intro h q hq l hl
        exact h q (by simp [hq]) l hl

/-- Full characterization of the pattern loop: a returned section comes from
the first pattern (in order) with any matching line, at that pattern's first
matching line, and is the extraction from that line. -/
theorem tryPatterns_eq_some {lines pats : List String} {s : String}
    (h : tryPatterns lines pats = some s) :
    ∃ ps1 p ps2 pre l post,
      pats = ps1 ++ p :: ps2 ∧
      (∀ q ∈ ps1, ∀ x ∈ lines, lineMatches q x = false) ∧
      lines = pre ++ l :: post ∧
      lineMatches p l = true ∧
      (∀ x ∈ pre, lineMatches p x = false) ∧
      s = joinLines (extractFrom l post [l]) := by
  induction pats with
  | nil => simp [tryPatterns] at h
  | cons p ps ih =>
    cases hscan : scanLines p lines with
    | some lr =>
      obtain ⟨l, r⟩ := lr
      rw [tryPatterns, hscan] at h
      obtain ⟨hm, pre, hpre, hnone⟩ := scanLines_eq_some hscan
      refine ⟨[], p, ps, pre, l, r, by simp, by simp, hpre, hm, hnone, ?_⟩
      simpa using h.symm
    | none =>
      rw [tryPatterns, hscan] at h
      obtain ⟨ps1, q, ps2, pre, l, post, hpats, hps1, hlines, hm, hnone, hs⟩ := ih h
      refine ⟨p :: ps1, q, ps2, pre, l, post, by simp [hpats], ?_, hlines, hm, hnone, hs⟩
      intro q2 hq2 x hx
      rcases List.mem_cons.mp hq2 with hq2 | hq2
      · subst hq2; exact scanLines_eq_none_iff.mp hscan x hx
      · exact hps1 q2 hq2 x hx

/-! ## Lemmas about the dict model and `extract_sections_from_docs` -/

theorem dictInsert_keys (d : List (String × String)) (k v : String) :
    (dictInsert d k v).map Prod.fst =
      if k ∈ d.map Prod.fst then d.map Prod.fst else d.map Prod.fst ++ [k] := by
  unfold dictInsert
  by_cases hmem : k ∈ d.map Prod.fst
  · have hany : d.any (fun p => p.1 == k) = true := by
      rcases List.mem_map.mp hmem with ⟨p, hp, hk⟩
      exact List.any_eq_true.mpr ⟨p, hp, by simp [hk]⟩
    rw [if_pos hany, if_pos hmem, List.map_map]
    apply List.map_congr_left
    intro p _
    by_cases hk : p.1 = k
    · simp [hk]
    · simp [hk]
  · have hany : d.any (fun p => p.1 == k) = false := by
      rw [List.any_eq_false]
      intro p hp
      intro hk
      exact hmem (List.mem_map.mpr ⟨p, hp, eq_of_beq hk⟩)
    rw [if_neg (by simp [hany]), if_neg hmem]
    simp

theorem dictGet_isSome_iff (d : List (String × String)) (k : String) :
    (dictGet d k).isSome ↔ k ∈ d.map Prod.fst := by
  induction d with
  | nil => simp [dictGet]
  | cons p d ih =>
    obtain ⟨k2, v2⟩ := p
    by_cases hk : k2 = k
    · subst hk
      simp [dictGet]
    · have hbeq : (k2 == k) = false := beq_eq_false_iff_ne.mpr hk
      simp only [dictGet, hbeq, Bool.false_eq_true, if_false, List.map_cons, List.mem_cons]
      rw [ih]
      constructor
      · intro h; exact .inr h
      · intro h
        rcases h with h | h
        · exact absurd h.symm hk
        · exact h

/-- One step of `extract_sections_from_docs`'s fold. -/
def extractStep (full_docs : String) (acc : List (String × String)) (title : String) :
    List (String × String) :=
  match find_section_content full_docs title with
  | some c => if c ≠ "" then dictInsert acc title c else dictInsert acc title (notFound title)
  | none => dictInsert acc title (notFound title)

theorem extract_sections_eq_fold (full_docs : String) (titles : List String) :
    extract_sections_from_docs full_docs titles = titles.foldl (extractStep full_docs) [] :=
  rfl

theorem extractStep_keys (full_docs : String) (acc : List (String × String))
    (title : String) :
    (extractStep full_docs acc title).map Prod.fst =
      if title ∈ acc.map Prod.fst then acc.map Prod.fst else acc.map Prod.fst ++ [title] := by
  unfold extractStep
  cases hfind : find_section_content full_docs title with
  | none =>
    simp only [hfind]
    exact dictInsert_keys acc title _
  | some c =>
    simp only [hfind]
    by_cases hc : c ≠ ""
    · rw [if_pos hc]; exact dictInsert_keys acc title _
    · rw [if_neg hc]; exact dictInsert_keys acc title _

theorem extract_fold_keys (full_docs : String) (titles : List String)
    (d : List (String × String)) :
    (titles.foldl (extractStep full_docs) d).map Prod.fst =
      titles.foldl (fun acc t => if t ∈ acc then acc else acc ++ [t]) (d.map Prod.fst) := by
  induction titles generalizing d with
  | nil => simp
  | cons t ts ih =>
    rw [List.foldl_cons, List.foldl_cons, ih, extractStep_keys]

theorem extract_sections_keys (full_docs : String) (titles : List String) :
    (extract_sections_from_docs full_docs titles).map Prod.fst = firstDedup titles := by
  rw [extract_sections_eq_fold, extract_fold_keys]
  rfl

theorem mem_dedup_fold_iff (t : String) (ts : List String) (acc : List String) :
    t ∈ ts.foldl (fun acc2 t2 => if t2 ∈ acc2 then acc2 else acc2 ++ [t2]) acc ↔
      t ∈ acc ∨ t ∈ ts := by
  induction ts generalizing acc with
  | nil => simp
  | cons a ts ih =>
    rw [List.foldl_cons]
    by_cases ha : a ∈ acc
    · rw [if_pos ha, ih]
      constructor
      · intro h
        rcases h with h | h
        · exact .inl h
        · exact .inr (by simp [h])
      · intro h
        rcases h with h | h
        · exact .inl h
        · rcases List.mem_cons.mp h with h | h
          · exact .inl (h ▸ ha)
          · exact .inr h
    · rw [if_neg ha, ih]
      constructor
      · intro h
        rcases h with h | h
        · rcases List.mem_append.mp h with h | h
          · exact .inl h
          · exact .inr (by simp [List.mem_singleton.mp h])
        · exact .inr (by simp [h])
      · intro h
        rcases h with h | h
        · exact .inl (by simp [h])
        · rcases List.mem_cons.mp h with h | h
          · exact .inl (by simp [h])
          · exact .inr h

theorem mem_firstDedup_iff (t : String) (ts : List String) :
    t ∈ firstDedup ts ↔ t ∈ ts := by
  unfold firstDedup
  rw [mem_dedup_fold_iff]
  simp

theorem extract_sections_key_present (full_docs : String) (titles : List String)
    (t : String) (h : t ∈ titles) :
    (dictGet (extract_sections_from_docs full_docs titles) t).isSome := by
  rw [dictGet_isSome_iff, extract_sections_keys, mem_firstDedup_iff]
  exact h

/-! ## Lemmas about `searchLink` and `_parse_toc` -/

theorem linkMatchAt_shape {cs t u : List Char}
    (h : linkMatchAt cs = some (t, u)) :
    t ≠ [] ∧ u ≠ [] ∧ ('[' :: (t ++ ']' :: '(' :: (u ++ [')']))) <+: cs := by
  unfold linkMatchAt at h
  split at h
  · next rest =>
    split at h
    · next t0 ts rest3 heq1 heq2 =>
      split at h
      · next u0 us es heq3 heq4 =>
        simp only [Option.some.injEq, Prod.mk.injEq] at h
        obtain ⟨h1, h2⟩ := h
        subst h1; subst h2
        refine ⟨by simp, by simp, ?_⟩
        have hrest : rest = (t0 :: ts) ++ ']' :: '(' :: rest3 := by
          have hsplit := List.takeWhile_append_dropWhile (fun c => c ≠ ']') rest
          rw [heq1, heq2] at hsplit
          exact hsplit.symm
        have hrest3 : rest3 = (u0 :: us) ++ ')' :: es := by
          have hsplit := List.takeWhile_append_dropWhile (fun c => c ≠ ')') rest3
          rw [heq3, heq4] at hsplit
          exact hsplit.symm
        refine ⟨es, ?_⟩
        rw [hrest, hrest3]
        simp
      · simp at h
    · simp at h
  · simp at h

theorem searchLink_shape {cs t u : List Char}
    (h : searchLink cs = some (t, u)) :
    t ≠ [] ∧ u ≠ [] ∧ ('[' :: (t ++ ']' :: '(' :: (u ++ [')']))) <:+: cs := by
  induction cs with
  | nil => simp [searchLink] at h
  | cons c cs ih =>
    rw [searchLink] at h
    cases hm : linkMatchAt (c :: cs) with
    | some r =>
      rw [hm] at h
      obtain ⟨t2, u2⟩ := r
      have hr : t2 = t ∧ u2 = u := by simpa using h
      obtain ⟨ht2, hu2⟩ := hr
      subst ht2; subst hu2
      obtain ⟨h1, h2, h3⟩ := linkMatchAt_shape hm
      exact ⟨h1, h2, h3.isInfix⟩
    | none =>
      rw [hm] at h
      obtain ⟨h1, h2, h3⟩ := ih h
      exact ⟨h1, h2, h3.trans (List.suffix_cons c cs).isInfix⟩

/-- The record list after one parser step is either unchanged or extended by
exactly one record built from a markdown link found in the stripped line,
with the current category. -/
theorem parseTocStep_snd (q : Option String) (st : String × List SectionRecord)
    (raw : String) :
    (parseTocStep q st raw).2 = st.2 ∨
      ∃ t u, searchLink (pyStrip raw).data = some (t, u) ∧
        (parseTocStep q st raw).2 = st.2 ++ [mkRecord (pyStrip ⟨t⟩) st.1 (pyStrip ⟨u⟩)] := by
  unfold parseTocStep
  by_cases h1 : pyStrip raw == ""
  · simp [h1]
  · rw [if_neg (by simp [h1])]
    by_cases h2 : isBulletLine (pyStrip raw)
    · rw [if_neg (by simp [h2])]
      cases hsl : searchLink (pyStrip raw).data with
      | none => exact .inl rfl
      | some tu =>
        obtain ⟨t, u⟩ := tu
        dsimp only
        by_cases hkeep : queryKeep q (pyStrip ⟨t⟩) st.1
        · rw [if_pos hkeep]
          exact .inr ⟨t, u, rfl, rfl⟩
        · rw [if_neg hkeep]
          exact .inl rfl
    · rw [if_pos (by simp [h2])]
      by_cases h3 : pyStrip raw != "" && !pyStartswith (pyStrip raw) "#" &&
        !pyStartswith (pyStrip raw) "http"
      · rw [if_pos h3]
        exact .inl rfl
      · rw [if_neg h3]
        exact .inl rfl

/-- The category component of one parser step depends only on the line and
the incoming category, never on the query. -/
theorem parseTocStep_fst (q1 q2 : Option String) (stF stN : String × List SectionRecord)
    (raw : String) (hcat : stF.1 = stN.1) :
    (parseTocStep q1 stF raw).1 = (parseTocStep q2 stN raw).1 := by
  unfold parseTocStep
  by_cases h1 : pyStrip raw == ""
  · simp [h1, hcat]
  · simp only [if_neg h1]
    by_cases h2 : isBulletLine (pyStrip raw)
    · simp only [if_neg (show ¬((!isBulletLine (pyStrip raw)) = true) from by simp [h2])]
      cases hsl : searchLink (pyStrip raw).data with
      | none => exact hcat
      | some tu =>
        obtain ⟨t, u⟩ := tu
        dsimp only
        by_cases hk1 : queryKeep q1 (pyStrip ⟨t⟩) stF.1
        · rw [if_pos hk1]
          by_cases hk2 : queryKeep q2 (pyStrip ⟨t⟩) stN.1
          · rw [if_pos hk2]; exact hcat
          · rw [if_neg hk2]; exact hcat
        · rw [if_neg hk1]
          by_cases hk2 : queryKeep q2 (pyStrip ⟨t⟩) stN.1
          · rw [if_pos hk2]; exact hcat
          · rw [if_neg hk2]; exact hcat
    · simp only [if_pos (show (!isBulletLine (pyStrip raw)) = true from by simp [h2])]
      by_cases h3 : pyStrip raw != "" && !pyStartswith (pyStrip raw) "#" &&
        !pyStartswith (pyStrip raw) "http"
      · simp only [if_pos h3]
      · simp only [if_neg h3]
        exact hcat

/-- One filtered parser step against one unfiltered parser step: the
category stays synchronized, the filtered records stay a sublist of the
unfiltered ones, and every filtered record matches the query. -/
theorem parseTocStep_filter_rel (q : String) (hq : q ≠ "")
    (stF stN : String × List SectionRecord) (raw : String)
    (hcat : stF.1 = stN.1) (hsub : List.Sublist stF.2 stN.2)
    (hP : ∀ r ∈ stF.2, pyIn (pyLower q) (pyLower r.title) = true ∨
      pyIn (pyLower q) (pyLower r.category) = true) :
    (parseTocStep (some q) stF raw).1 = (parseTocStep none stN raw).1 ∧
    List.Sublist (parseTocStep (some q) stF raw).2 (parseTocStep none stN raw).2 ∧
    ∀ r ∈ (parseTocStep (some q) stF raw).2,
      pyIn (pyLower q) (pyLower r.title) = true ∨
        pyIn (pyLower q) (pyLower r.category) = true := by
  refine ⟨parseTocStep_fst _ _ _ _ _ hcat, ?_⟩
  unfold parseTocStep
  by_cases h1 : pyStrip raw == ""
  · simp only [if_pos h1]
    exact ⟨hsub, hP⟩
  · simp only [if_neg h1]
    by_cases h2 : isBulletLine (pyStrip raw)
    · simp only [if_neg (show ¬((!isBulletLine (pyStrip raw)) = true) from by simp [h2])]
      cases hsl : searchLink (pyStrip raw).data with
      | none => exact ⟨hsub, hP⟩
      | some tu =>
        obtain ⟨t, u⟩ := tu
        dsimp only
        rw [if_pos (show queryKeep none (pyStrip ⟨t⟩) stN.1 = true from rfl)]
        have hqe : (q == "") = false := beq_eq_false_iff_ne.mpr hq
        by_cases hk : (pyIn (pyLower q) (pyLower (pyStrip ⟨t⟩)) ||
            pyIn (pyLower q) (pyLower stF.1)) = true
        · rw [if_pos (by
            show (q == "" || pyIn (pyLower q) (pyLower (pyStrip ⟨t⟩)) ||
              pyIn (pyLower q) (pyLower stF.1)) = true
            rcases Bool.or_eq_true _ _ |>.mp hk with h | h <;> simp [h])]
          constructor
          · rw [hcat]
            exact hsub.append (List.Sublist.refl _)
          · intro r hr
            rcases List.mem_append.mp hr with hr | hr
            · exact hP r hr
            · have hrec := List.mem_singleton.mp hr
              subst hrec
              rcases Bool.or_eq_true _ _ |>.mp hk with h | h
              · exact .inl h
              · exact .inr h
        · rw [if_neg (by
            show ¬(q == "" || pyIn (pyLower q) (pyLower (pyStrip ⟨t⟩)) ||
              pyIn (pyLower q) (pyLower stF.1)) = true
            simp only [hqe, Bool.false_or]
            exact hk)]
          exact ⟨hsub.trans (List.sublist_append_left stN.2 _), hP⟩
    · simp only [if_pos (show (!isBulletLine (pyStrip raw)) = true from by simp [h2])]
      by_cases h3 : pyStrip raw != "" && !pyStartswith (pyStrip raw) "#" &&
        !pyStartswith (pyStrip raw) "http"
      · simp only [if_pos h3]
        exact ⟨hsub, hP⟩
      · simp only [if_neg h3]
        exact ⟨hsub, hP⟩

theorem parseToc_fold_filter (q : String) (hq : q ≠ "") (lines : List String)
    (stF stN : String × List SectionRecord)
    (hcat : stF.1 = stN.1) (hsub : List.Sublist stF.2 stN.2)
    (hP : ∀ r ∈ stF.2, pyIn (pyLower q) (pyLower r.title) = true ∨
      pyIn (pyLower q) (pyLower r.category) = true) :
    List.Sublist (lines.foldl (parseTocStep (some q)) stF).2
        (lines.foldl (parseTocStep none) stN).2 ∧
      ∀ r ∈ (lines.foldl (parseTocStep (some q)) stF).2,
        pyIn (pyLower q) (pyLower r.title) = true ∨
          pyIn (pyLower q) (pyLower r.category) = true := by
  induction lines generalizing stF stN with
  | nil => exact ⟨hsub, hP⟩
  | cons raw lines ih =>
    rw [List.foldl_cons, List.foldl_cons]
    obtain ⟨hc2, hs2, hp2⟩ := parseTocStep_filter_rel q hq stF stN raw hcat hsub hP
    exact ih _ _ hc2 hs2 hp2

/-- Every record accumulated by the parser fold satisfies any property that
holds of all link-derived records from the given lines and of the records
already present. -/
theorem parseToc_fold_records (q : Option String) (lines : List String)
    (P : SectionRecord → Prop)
    (hstep : ∀ cat rawLine t u, rawLine ∈ lines →
      searchLink (pyStrip rawLine).data = some (t, u) →
      P (mkRecord (pyStrip ⟨t⟩) cat (pyStrip ⟨u⟩)))
    (st : String × List SectionRecord) (hst : ∀ r ∈ st.2, P r) :
    ∀ r ∈ (lines.foldl (parseTocStep q) st).2, P r := by
  induction lines generalizing st with
  | nil => exact hst
  | cons raw lines ih =>
    rw [List.foldl_cons]
    apply ih (fun cat rawLine t u hmem hsl => hstep cat rawLine t u (by simp [hmem]) hsl)
    rcases parseTocStep_snd q st raw with hsnd | ⟨t, u, hsl, hsnd⟩
    · rw [hsnd]; exact hst
    · rw [hsnd]
      intro r hr
      rcases List.mem_append.mp hr with hr | hr
      · exact hst r hr
      · have hrec := List.mem_singleton.mp hr
        subst hrec
        exact hstep st.1 raw t u (by simp) hsl

/-! ## Remaining helper lemmas for the claim theorems -/

theorem eq_empty_of_data_nil {s : String} (h : s.data = []) : s = "" := by
  cases s with
  | mk d => cases h; rfl

theorem extract_join_ne (l : String) (rest : List String) (hl : l ≠ "") :
    joinLines (extractFrom l rest [l]) ≠ "" := by
  obtain ⟨t, ht⟩ := extractFrom_eq_append l rest [l]
  rw [ht]
  have h2 : ([l] ++ t) = l :: t := by simp
  rw [h2]
  exact joinLines_ne_empty_of_head_ne t hl

theorem tryPatterns_isSome_of (lines pats : List String) (p l : String)
    (hp : p ∈ pats) (hl : l ∈ lines) (hm : lineMatches p l = true) :
    ∃ s, tryPatterns lines pats = some s := by
  cases htp : tryPatterns lines pats with
  | some s => exact ⟨s, rfl⟩
  | none =>
    have hfalse := tryPatterns_eq_none_iff.mp htp p hp l hl
    rw [hm] at hfalse
    exact absurd hfalse (by simp)

theorem patternsFor_empty_mem {title : String} (h : "" ∈ patternsFor title) :
    title = "" := by
  simp only [patternsFor, List.mem_cons, List.mem_singleton, List.not_mem_nil,
    or_false] at h
  have hhash : ("# " : String).data = ['#', ' '] := rfl
  have hhash2 : ("## " : String).data = ['#', '#', ' '] := rfl
  have hhash3 : ("### " : String).data = ['#', '#', '#', ' '] := rfl
  rcases h with h | h | h | h | h | h
  · have h2 := congrArg String.data h
    rw [String.data_append, hhash] at h2
    simp at h2
  · have h2 := congrArg String.data h
    rw [String.data_append, hhash2] at h2
    simp at h2
  · have h2 := congrArg String.data h
    rw [String.data_append, hhash3] at h2
    simp at h2
  · exact h.symm
  · have h2 := congrArg String.data h
    rw [pyLower_data] at h2
    exact eq_empty_of_data_nil (List.map_eq_nil_iff.mp h2.symm)
  · have h2 := congrArg String.data h
    rw [pyLower_data] at h2
    have h3 : (pyReplaceSpaceDash title).data = [] := List.map_eq_nil_iff.mp h2.symm
    have h4 : title.data.map (fun c => if c = ' ' then '-' else c) = [] := h3
    exact eq_empty_of_data_nil (List.map_eq_nil_iff.mp h4)

theorem pyIn_hash_of_boundary {hdr t : String} (hb : isBoundary hdr t = true) :
    pyIn "# " (pyLower t) = true := by
  unfold isBoundary at hb
  have hpre : ("# " : String).data <+: (pyStrip t).data ∨
      ("## " : String).data <+: (pyStrip t).data := by
    rcases Bool.or_eq_true _ _ |>.mp hb with h | h
    · exact .inl (pyStartswith_eq_true_iff.mp h)
    · exact .inr (pyStartswith_eq_true_iff.mp (Bool.and_eq_true _ _ |>.mp h |>.1))
  have hinf : ("# " : String).data <:+: (pyStrip t).data := by
    rcases hpre with h | h
    · exact h.isInfix
    · exact (show ("# " : String).data <:+: ("## " : String).data by decide).trans h.isInfix
  have hinf2 : ("# " : String).data <:+: t.data := hinf.trans (pyStrip_data_isInfix t)
  rw [pyIn_eq_true_iff, pyLower_data]
  have hmap := hinf2.map Char.toLower
  have hfix : ("# " : String).data.map Char.toLower = ("# " : String).data := by decide
  rwa [hfix] at hmap

theorem lineMatches_of_hash_infix {t : String} (h : pyIn "# " (pyLower t) = true) :
    lineMatches "# " t = true := by
  unfold lineMatches
  rw [h]
  simp

theorem splitLinesAux_head (cs acc : List Char) :
    ∃ t rest, splitLinesAux cs acc = (acc.reverse ++ t) :: rest := by
  induction cs generalizing acc with
  | nil => exact ⟨[], [], by simp [splitLinesAux]⟩
  | cons c cs ih =>
    by_cases hc : c = '\n'
    · subst hc
      rw [splitLinesAux_newline]
      exact ⟨[], splitLinesAux cs [], by simp⟩
    · rw [show splitLinesAux (c :: cs) acc = splitLinesAux cs (c :: acc) from by
        simp [splitLinesAux, hc]]
      obtain ⟨t, rest, hrec⟩ := ih (c :: acc)
      refine ⟨c :: t, rest, ?_⟩
      rw [hrec]
      simp

theorem splitLines_singleton_empty {docs : String} (h : splitLines docs = [""]) :
    docs = "" := by
  by_contra hd
  have hdata := data_ne_nil_of_ne_empty hd
  cases hcs : docs.data with
  | nil => exact hdata hcs
  | cons c cs =>
    unfold splitLines at h
    rw [hcs] at h
    by_cases hc : c = '\n'
    · subst hc
      rw [splitLinesAux_newline] at h
      rw [List.map_cons] at h
      have h2 : (splitLinesAux cs []).map String.mk = [] := (List.cons_eq_cons.mp h).2
      exact splitLinesAux_ne_nil cs [] (List.map_eq_nil_iff.mp h2)
    · rw [show splitLinesAux (c :: cs) [] = splitLinesAux cs [c] from by
        simp [splitLinesAux, hc]] at h
      obtain ⟨t, rest, hrec⟩ := splitLinesAux_head cs [c]
      rw [hrec, List.map_cons] at h
      have h1 : String.mk ([c].reverse ++ t) = "" := (List.cons_eq_cons.mp h).1
      have h2 := congrArg String.data h1
      simp at h2

theorem lineMatches_lower_heading (title : String) :
    lineMatches (pyLower title) ("## " ++ title) = true := by
  unfold lineMatches
  rw [Bool.or_eq_true]
  left
  rw [pyIn_eq_true_iff, pyLower_append, String.data_append]
  exact (List.suffix_append (pyLower "## ").data (pyLower title).data).isInfix

/-! ## Claim theorems -/

/-- Claim C1, counterexample: requesting the duplicate title list
`["A", "A"]` yields a mapping with a single entry, so the number of entries
is not the length of the requested-titles list as the claim states. -/
theorem c1_counterexample :
    extract_sections_from_docs "" ["A", "A"] = [("A", notFound "A")] ∧
      (extract_sections_from_docs "" ["A", "A"]).length ≠
        (["A", "A"] : List String).length := by
  constructor
  · decide
  · decide

/-- Claim C1, amended: the mapping returned by `_extract_sections_from_docs`
has exactly one entry per DISTINCT requested title: its key sequence equals
the requested titles with later duplicates removed in first-occurrence
order, so the number of entries equals the number of distinct requested
titles (strictly fewer than the list length when duplicates occur); empty
string titles still obtain an entry. -/
theorem c1_thm (docs : String) (titles : List String) :
    (extract_sections_from_docs docs titles).map Prod.fst = firstDedup titles ∧
      (extract_sections_from_docs docs titles).length = (firstDedup titles).length := by
  refine ⟨extract_sections_keys docs titles, ?_⟩
  have h := congrArg List.length (extract_sections_keys docs titles)
  simpa using h

/-- Claim C2, counterexample: the heading `"## Copilot Basics"` is present
verbatim as a line, yet extraction returns a string that does not contain
the heading line (the all-lowercase pattern `"copilot basics"` matches an
earlier prose line first, because earlier patterns keep their uppercase
letters while only the scanned line is lowercased). -/
theorem c2_counterexample :
    find_section_content
        "mention of copilot basics here\n# Divider\n## Copilot Basics\nbody"
        "Copilot Basics" = some "mention of copilot basics here" ∧
      ("## " ++ "Copilot Basics") ∈ splitLines
        "mention of copilot basics here\n# Divider\n## Copilot Basics\nbody" ∧
      pyIn "## Copilot Basics" "mention of copilot basics here" = false := by
  refine ⟨by decide, by decide, by decide⟩

/-- Claim C2, amended: if the exact heading text `"## {title}"` occurs
verbatim as a line of the document, then `_find_section_content` finds a
section: it returns some non-empty string (so the mapping entry is produced
by the found branch, not the not-found placeholder) — but the returned
string need not contain the heading line, since an earlier line may match
one of the lowercased fallback patterns first. -/
theorem c2_thm (docs title : String) (h : ("## " ++ title) ∈ splitLines docs) :
    ∃ s, find_section_content docs title = some s ∧ s ≠ "" := by
  obtain ⟨s, hs⟩ := tryPatterns_isSome_of (splitLines docs) (patternsFor title)
    (pyLower title) ("## " ++ title)
    (by simp [patternsFor]) h (lineMatches_lower_heading title)
  refine ⟨s, hs, ?_⟩
  obtain ⟨ps1, p, ps2, pre, l, post, hpats, hps1, hlines, hm, hnone, hsj⟩ :=
    tryPatterns_eq_some hs
  by_cases hl : l = ""
  · subst hl
    have hp : p = "" := by
      by_contra hp
      exact lineMatches_nil_line hp hm
    subst hp
    have htitle : title = "" := patternsFor_empty_mem (by rw [hpats]; simp)
    subst htitle
    have hpf : patternsFor "" = ["# ", "## ", "### ", "", "", ""] := by decide
    rw [hpf] at hpats
    cases ps1 with
    | nil =>
      have h1 := (List.cons_eq_cons.mp hpats).1
      exact absurd h1 (by decide)
    | cons p0 ps1b =>
      have h1 := (List.cons_eq_cons.mp hpats).1
      have hnm := hps1 p0 (by simp) ("## " ++ "") h
      rw [← h1] at hnm
      have hyes : lineMatches "# " ("## " ++ "") = true := by decide
      rw [hnm] at hyes
      exact absurd hyes (by simp)
  · rw [hsj]
    exact extract_join_ne l post hl

/-- Witness for C2 at the document `"## t"` and title `"t"`. -/
theorem c2_witness :
    (("## " ++ "t") ∈ splitLines "## t") ∧
      ∃ s, find_section_content "## t" "t" = some s ∧ s ≠ "" :=
  ⟨by decide, c2_thm "## t" "t" (by decide)⟩

set_option maxRecDepth 8192 in
/-- Claim C3, counterexample: on a document whose matched section runs for
105 further lines with no boundary, the returned string has exactly 102
lines — the matched line, 101 further content lines counting the marker —
which exceeds the 101-line bound stated by the claim. -/
theorem c3_counterexample :
    find_section_content (joinLines ("t" :: List.replicate 105 "x")) "t" =
        some (joinLines ("t" :: (List.replicate 100 "x" ++ [truncMarker]))) ∧
      (splitLines (joinLines ("t" :: (List.replicate 100 "x" ++ [truncMarker])))).length
        = 102 := by
  constructor
  · decide
  · decide

/-- Claim C3, amended: the string returned by `_find_section_content` never
exceeds 102 lines.  Without truncation the result has at most 100 lines;
when the cap fires the result is exactly 102 lines — the matched line plus
100 subsequent content lines plus the literal marker
`"... (content truncated)"` as the last line (the loop appends the marker
after the accumulated content reaches 101 lines, not 100 as claimed). -/
theorem c3_thm (docs title s : String)
    (h : find_section_content docs title = some s) :
    (splitLines s).length ≤ 100 ∨
      ((splitLines s).length = 102 ∧ (splitLines s).getLast? = some truncMarker) := by
  obtain ⟨ps1, p, ps2, pre, l, post, hpats, hps1, hlines, hm, hnone, hsj⟩ :=
    tryPatterns_eq_some h
  have hnl : ∀ x ∈ extractFrom l post [l], '\n' ∉ x.data := by
    intro x hx
    rcases extractFrom_mem hx with hx2 | hx2 | hx2
    · have hxl : x = l := List.mem_singleton.mp hx2
      subst hxl
      exact no_newline_mem_splitLines (by rw [hlines]; simp)
    · exact no_newline_mem_splitLines (by rw [hlines]; simp [hx2])
    · subst hx2
      decide
  have hne : extractFrom l post [l] ≠ [] := by
    obtain ⟨t, ht⟩ := extractFrom_eq_append l post [l]
    rw [ht]
    simp
  have hround : splitLines s = extractFrom l post [l] := by
    rw [hsj]
    exact splitLines_joinLines hne hnl
  rw [hround]
  exact extractFrom_length_bound (by simp)

/-- Witness for C3 at the document `"# a"` and title `"a"`. -/
theorem c3_witness :
    (find_section_content "# a" "a" = some "# a") ∧
      ((splitLines "# a").length ≤ 100 ∨
        ((splitLines "# a").length = 102 ∧
          (splitLines "# a").getLast? = some truncMarker)) :=
  ⟨by decide, c3_thm "# a" "a" "# a" (by decide)⟩

/-- Claim C4, counterexample: a two-hash line identical to the stripped
matched header line does NOT terminate extraction — the extracted content
for title `"a"` contains the second `"## a"` line and continues past it,
because in Python `"## a".startswith('# ')` is false (second character is
`#`, not a space) and the `'## '` disjunct requires the line to differ from
the matched header. -/
theorem c4_counterexample :
    find_section_content "## a\nx\n## a\ny" "a" = some "## a\nx\n## a\ny" ∧
      isBoundary "## a" "## a" = false ∧
      pyStartswith (pyStrip "## a") "## " = true := by
  refine ⟨by decide, by decide, by decide⟩

/-- Claim C4, amended: during extraction from a matched line, accumulation
terminates exactly at the first subsequent line whose stripped form starts
with `"# "` (one hash then a space — a `"## "` line does not start with
`"# "`), or starts with `"## "` and differs from the stripped matched
header line; the boundary line is excluded.  A two-hash line equal to the
stripped matched header does not terminate extraction.  Stated
behaviorally: if the first `j` subsequent lines are not boundaries
(`isBoundary`), the `j`-th is, and `j ≤ 99` so the line cap does not
intervene, the accumulated content is the matched line followed by exactly
those `j` lines. -/
theorem c4_thm (header : String) (rest : List String) (j : Nat)
    (hj : j < rest.length) (hpre : ∀ l ∈ rest.take j, isBoundary header l = false)
    (hb : isBoundary header (rest.getD j "") = true) (hcap : j ≤ 99) :
    extractFrom header rest [header] = [header] ++ rest.take j :=
  extractFrom_stop_at_boundary hj hpre hb (by simp; omega)

/-- Witness for C4 with header `"## a"`, boundary `"# end"` at index 1. -/
theorem c4_witness :
    ((1 : Nat) ≤ 99) ∧
      extractFrom "## a" ["x", "# end", "y"] ["## a"] =
        ["## a"] ++ (["x", "# end", "y"].take 1) :=
  ⟨by decide, c4_thm "## a" ["x", "# end", "y"] 1 (by decide) (by decide)
    (by decide) (by decide)⟩

/-- Claim C5, counterexample: the claim's matcher compares the pattern
case-insensitively, but the code lowercases only the line.  On the document
`"b x\n# B"` with title `"B"`, the claimed (case-insensitive) matcher finds
`"# B"` under the first pattern and would return `"# B"`, while the code's
matcher cannot match any pattern containing an uppercase letter and falls
through to the lowercased-title pattern `"b"`, matching the prose line
`"b x"` instead. -/
theorem c5_counterexample :
    find_section_content "b x\n# B" "B" = some "b x" ∧
      specFindSectionContent "b x\n# B" "B" = some "# B" ∧
      ("b x" : String) ≠ "# B" := by
  refine ⟨by decide, by decide, by decide⟩

/-- Claim C5, amended: `_find_section_content` tries the six candidate
patterns in the fixed priority order, and a line matches a pattern iff the
pattern VERBATIM is a substring of the lowercased line (only the line is
lowercased, so a pattern containing an uppercase letter can never match via
the substring test), or the line lowercased and stripped equals the
pattern; the section start is the first matching line under the first
pattern that matches anywhere.  Stated as: the matcher is exactly
`lineMatches`, the function returns none iff no pattern matches any line,
and any returned string is the extraction from the first matching line
(`l` after prefix `pre` with no earlier match) of the first pattern `p`
with any match (all patterns before `p` match no line). -/
theorem c5_thm (docs title : String) :
    (∀ p l : String, lineMatches p l =
      (pyIn p (pyLower l) || pyStrip (pyLower l) == p)) ∧
    (find_section_content docs title = none ↔
      ∀ p ∈ patternsFor title, ∀ l ∈ splitLines docs, lineMatches p l = false) ∧
    ∀ s, find_section_content docs title = some s →
      ∃ ps1 p ps2 pre l post,
        patternsFor title = ps1 ++ p :: ps2 ∧
        (∀ q ∈ ps1, ∀ x ∈ splitLines docs, lineMatches q x = false) ∧
        splitLines docs = pre ++ l :: post ∧
        lineMatches p l = true ∧
        (∀ x ∈ pre, lineMatches p x = false) ∧
        s = joinLines (extractFrom l post [l]) :=
  ⟨fun _ _ => rfl, tryPatterns_eq_none_iff, fun _ h => tryPatterns_eq_some h⟩

/-- Witness for C5 at the document `"b\n# c"` and title `"c"`. -/
theorem c5_witness :
    (find_section_content "b\n# c" "c" = some "# c") ∧
      ∃ ps1 p ps2 pre l post,
        patternsFor "c" = ps1 ++ p :: ps2 ∧
        (∀ q ∈ ps1, ∀ x ∈ splitLines "b\n# c", lineMatches q x = false) ∧
        splitLines "b\n# c" = pre ++ l :: post ∧
        lineMatches p l = true ∧
        (∀ x ∈ pre, lineMatches p x = false) ∧
        "# c" = joinLines (extractFrom l post [l]) :=
  ⟨by decide, (c5_thm "b\n# c" "c").2.2 "# c" (by decide)⟩

/-- Claim C6, counterexample: on the non-empty document `"x"`, requesting
the empty-string title yields the extracted content `"x"` (the empty
pattern is a substring of every line, so the first line matches), not the
not-found placeholder claimed. -/
theorem c6_counterexample :
    extract_sections_from_docs "x" [""] = [("", "x")] ∧
      ("x" : String) ≠ notFound "" := by
  refine ⟨by decide, by decide⟩

/-- Claim C6, amended: when the empty string is among the requested titles,
the returned mapping contains an entry for it rather than erroring; but the
value is the not-found placeholder only for the empty document — for every
non-empty document `_find_section_content` returns some non-empty string
for the empty title (one of the patterns `"# "`, `"## "`, `"### "`, `""`
always matches), which becomes the entry's value. -/
theorem c6_thm (docs : String) (titles : List String) (h : "" ∈ titles) :
    (dictGet (extract_sections_from_docs docs titles) "").isSome ∧
      (docs ≠ "" → ∃ s, find_section_content docs "" = some s ∧ s ≠ "") ∧
      extract_sections_from_docs "" [""] = [("", notFound "")] := by
  refine ⟨extract_sections_key_present docs titles "" h, ?_, by decide⟩
  intro hd
  have hne := splitLines_ne_nil docs
  obtain ⟨l0, rest0, hl0⟩ : ∃ l0 rest0, splitLines docs = l0 :: rest0 := by
    cases hsp : splitLines docs with
    | nil => exact absurd hsp hne
    | cons a b => exact ⟨a, b, rfl⟩
  obtain ⟨s, hs⟩ := tryPatterns_isSome_of (splitLines docs) (patternsFor "") "" l0
    (by decide) (by rw [hl0]; exact List.mem_cons_self l0 rest0) (lineMatches_empty l0)
  refine ⟨s, hs, ?_⟩
  obtain ⟨ps1, p, ps2, pre, l, post, hpats, hps1, hlines, hm, hnone, hsj⟩ :=
    tryPatterns_eq_some hs
  by_cases hl : l = ""
  · subst hl
    have hp : p = "" := by
      by_contra hp
      exact lineMatches_nil_line hp hm
    subst hp
    have hpre0 : pre = [] := by
      cases pre with
      | nil => rfl
      | cons x pre2 =>
        have hx := hnone x (by simp)
        rw [lineMatches_empty] at hx
        exact absurd hx (by simp)
    subst hpre0
    have hpf : patternsFor "" = ["# ", "## ", "### ", "", "", ""] := by decide
    rw [hpf] at hpats
    cases ps1 with
    | nil =>
      have h1 := (List.cons_eq_cons.mp hpats).1
      exact absurd h1 (by decide)
    | cons p0 ps1b =>
      have h1 := (List.cons_eq_cons.mp hpats).1
      have hps1h : ∀ x ∈ splitLines docs, lineMatches "# " x = false := by
        intro x hx
        have hh := hps1 p0 (by simp) x hx
        rwa [← h1] at hh
      cases post with
      | nil =>
        simp only [List.nil_append] at hlines
        exact absurd (splitLines_singleton_empty hlines) hd
      | cons t1 ts =>
        have ht1mem : t1 ∈ splitLines docs := by rw [hlines]; simp
        have hb : isBoundary "" t1 = false := by
          cases hbb : isBoundary "" t1 with
          | false => rfl
          | true =>
            have hpy := lineMatches_of_hash_infix (pyIn_hash_of_boundary hbb)
            rw [hps1h t1 ht1mem] at hpy
            exact absurd hpy (by simp)
        rw [hsj, extractFrom_cons, if_neg (by simp [hb]),
          if_neg (by simp)]
        obtain ⟨t, htt⟩ := extractFrom_eq_append "" ts ([""] ++ [t1])
        rw [htt, show (([""] : List String) ++ [t1]) ++ t = "" :: t1 :: t from by simp]
        exact joinLines_cons_cons_ne_empty "" t1 t
  · rw [hsj]
    exact extract_join_ne l post hl

/-- Witness for C6 at the document `"x"` and titles `[""]`. -/
theorem c6_witness :
    ("" ∈ ([""] : List String)) ∧
      ((dictGet (extract_sections_from_docs "x" [""]) "").isSome ∧
        (("x" : String) ≠ "" → ∃ s, find_section_content "x" "" = some s ∧ s ≠ "") ∧
        extract_sections_from_docs "" [""] = [("", notFound "")]) :=
  ⟨by decide, c6_thm "x" [""] (by decide)⟩

/-- Claim C7, counterexample: the bullet line `"- [ ](u)"` contains a link
whose bracketed text is a single space, which the parser strips to the
EMPTY title — refuting the claim that every returned record has a non-empty
title. -/
theorem c7_counterexample :
    parse_toc "- [ ](u)" none = [⟨"", "", "u", ""⟩] ∧
      (⟨"", "", "u", ""⟩ : SectionRecord).title = "" := by
  refine ⟨by decide, rfl⟩

/-- Claim C7, amended: every SectionRecord returned by `_parse_toc` comes
from a `[title](url)` markdown link occurring in the input text: there are
non-empty capture strings `t` (no `]`) and `u` (no `)`) with the whole link
`"[" ++ t ++ "](" ++ u ++ ")"` a substring of the input, and the record's
title and url are `t` and `u` STRIPPED of surrounding whitespace — hence
possibly empty when a capture is all whitespace (the unstripped captures
are non-empty, the stored fields need not be). -/
theorem c7_thm (toc : String) (q : Option String) (rec : SectionRecord)
    (h : rec ∈ parse_toc toc q) :
    ∃ t u : String, t ≠ "" ∧ u ≠ "" ∧ rec.title = pyStrip t ∧ rec.url = pyStrip u ∧
      ("[" ++ t ++ "](" ++ u ++ ")").data <:+: toc.data := by
  unfold parse_toc at h
  refine parseToc_fold_records q (splitLines (pyStrip toc))
    (fun r => ∃ t u : String, t ≠ "" ∧ u ≠ "" ∧ r.title = pyStrip t ∧
      r.url = pyStrip u ∧ ("[" ++ t ++ "](" ++ u ++ ")").data <:+: toc.data)
    ?_ ("", []) (by simp) rec h
  intro cat rawLine t u hmem hsl
  obtain ⟨ht, hu, hinf⟩ := searchLink_shape hsl
  refine ⟨⟨t⟩, ⟨u⟩, ne_empty_of_data_ne_nil ht, ne_empty_of_data_ne_nil hu, rfl, rfl, ?_⟩
  have hdata : ("[" ++ String.mk t ++ "](" ++ String.mk u ++ ")").data =
      '[' :: (t ++ ']' :: '(' :: (u ++ [')'])) := by
    simp [String.data_append]
  rw [hdata]
  exact hinf.trans ((pyStrip_data_isInfix rawLine).trans
    ((isInfix_of_mem_splitLines hmem).trans (pyStrip_data_isInfix toc)))

/-- Witness for C7 at the TOC `"- [A](u)"`. -/
theorem c7_witness :
    ((⟨"A", "", "u", "A"⟩ : SectionRecord) ∈ parse_toc "- [A](u)" none) ∧
      ∃ t u : String, t ≠ "" ∧ u ≠ "" ∧
        (⟨"A", "", "u", "A"⟩ : SectionRecord).title = pyStrip t ∧
        (⟨"A", "", "u", "A"⟩ : SectionRecord).url = pyStrip u ∧
        ("[" ++ t ++ "](" ++ u ++ ")").data <:+: ("- [A](u)" : String).data :=
  ⟨by decide, c7_thm "- [A](u)" none ⟨"A", "", "u", "A"⟩ (by decide)⟩

/-- Claim C8, confirmed: for every TOC text and non-empty query, the
filtered parse is an order-preserving subsequence (List.Sublist) of the
unfiltered parse, and every retained record has the query as a
case-insensitive substring of its title or of its category. -/
theorem c8_thm (toc q : String) (hq : q ≠ "") :
    List.Sublist (parse_toc toc (some q)) (parse_toc toc none) ∧
      ∀ r ∈ parse_toc toc (some q),
        pyIn (pyLower q) (pyLower r.title) = true ∨
          pyIn (pyLower q) (pyLower r.category) = true := by
  unfold parse_toc
  exact parseToc_fold_filter q hq (splitLines (pyStrip toc)) ("", []) ("", [])
    rfl (List.Sublist.refl _) (by simp)

/-- Witness for C8 at a two-entry TOC with query `"a"`. -/
theorem c8_witness :
    (("a" : String) ≠ "") ∧
      (List.Sublist (parse_toc "Cat\n- [alpha](u1)\n- [beta](u2)" (some "a"))
          (parse_toc "Cat\n- [alpha](u1)\n- [beta](u2)" none) ∧
        ∀ r ∈ parse_toc "Cat\n- [alpha](u1)\n- [beta](u2)" (some "a"),
          pyIn (pyLower "a") (pyLower r.title) = true ∨
            pyIn (pyLower "a") (pyLower r.category) = true) :=
  ⟨by decide, c8_thm "Cat\n- [alpha](u1)\n- [beta](u2)" "a" (by decide)⟩

/-- Claim C9, confirmed: when the document fetch raises, both tool
implementations return a structured failure result — `success = false`, the
raised message as the error string, and empty content (empty raw TOC
string for identify, empty extracted-content mapping for fetch) — instead
of propagating the fault. -/
theorem c9_thm (e q : String) (titles : List String) :
    (identify_sections_async (.error e) q).success = false ∧
      (identify_sections_async (.error e) q).error = some e ∧
      (identify_sections_async (.error e) q).raw_toc_content = "" ∧
      (fetch_content_async (.error e) titles q).success = false ∧
      (fetch_content_async (.error e) titles q).error = some e ∧
      (fetch_content_async (.error e) titles q).extracted_content = [] :=
  ⟨rfl, rfl, rfl, rfl, rfl, rfl⟩

/-- Claim C10, confirmed: whenever `_find_section_content` returns a
string, that string is the newline-join of a contiguous run of
consecutive, unmodified lines of the document (a middle segment of the
split document) starting at a line matching one of the candidate patterns,
optionally followed by the single truncation-marker line. -/
theorem c10_thm (docs title s : String)
    (h : find_section_content docs title = some s) :
    ∃ pre mid post, splitLines docs = pre ++ mid ++ post ∧ mid ≠ [] ∧
      (∃ p ∈ patternsFor title, lineMatches p (mid.headD "") = true) ∧
      (s = joinLines mid ∨ s = joinLines (mid ++ [truncMarker])) := by
  obtain ⟨ps1, p, ps2, pre, l, post, hpats, hps1, hlines, hm, hnone, hsj⟩ :=
    tryPatterns_eq_some h
  have hpmem : p ∈ patternsFor title := by rw [hpats]; simp
  obtain ⟨k, hk | hk⟩ := extractFrom_take l post [l]
  · refine ⟨pre, l :: post.take k, post.drop k, ?_, by simp, ⟨p, hpmem, by simpa using hm⟩,
      .inl ?_⟩
    · rw [hlines]
      simp [List.take_append_drop]
    · rw [hsj, hk]
      simp
  · refine ⟨pre, l :: post.take k, post.drop k, ?_, by simp, ⟨p, hpmem, by simpa using hm⟩,
      .inr ?_⟩
    · rw [hlines]
      simp [List.take_append_drop]
    · rw [hsj, hk]
      simp

/-- Witness for C10 at the document `"# a\nb"` and title `"a"`. -/
theorem c10_witness :
    (find_section_content "# a\nb" "a" = some "# a\nb") ∧
      ∃ pre mid post, splitLines "# a\nb" = pre ++ mid ++ post ∧ mid ≠ [] ∧
        (∃ p ∈ patternsFor "a", lineMatches p (mid.headD "") = true) ∧
        (("# a\nb" : String) = joinLines mid ∨
          ("# a\nb" : String) = joinLines (mid ++ [truncMarker])) :=
  ⟨by decide, c10_thm "# a\nb" "a" "# a\nb" (by decide)⟩

end OpenBBDocs
